import Mathlib

/-!
Verification of the `numerical` polynomial program (`src/main.rs`).

The program stores a univariate polynomial as two index-aligned lists:
`coefficients : Vec<f64>` and `degrees : Vec<i32>`.  We embed it shallowly:
`f64` coefficients are modelled as exact rationals `ℚ` (every concrete value
appearing in the program and its specification is a small integer, on which
`f64` arithmetic is exact), and `i32` degrees as `ℤ` (no arithmetic in the
program approaches the `i32` range).  `Vec` becomes `List`, `Result` becomes
`Except`.  Rust's `sort_by` is a stable sort; we model it with
`List.insertionSort`, which is stable, and prove the stability property
explicitly below.
-/

namespace Numerical

/-- Model of `struct MismatchError;` — a zero-data error marker. -/
structure MismatchError : Type where
deriving DecidableEq, Repr

/-- Model of `struct Polynomial { coefficients: Vec<f64>, degrees: Vec<i32> }`. -/
structure Polynomial : Type where
  coefficients : List ℚ
  degrees : List ℤ
deriving DecidableEq, Repr

/-- The comparison used by `combined.sort_by(|a, b| a.0.cmp(&b.0))`:
pairs `(degree, coefficient)` ordered by degree. -/
def degLe (a b : ℤ × ℚ) : Prop := a.1 ≤ b.1

instance : DecidableRel degLe := fun a b => inferInstanceAs (Decidable (a.1 ≤ b.1))

instance : IsTotal (ℤ × ℚ) degLe := ⟨fun a b => le_total a.1 b.1⟩

instance : IsTrans (ℤ × ℚ) degLe := ⟨fun _ _ _ h h' => le_trans h h'⟩

/-- Model of `Polynomial::new`: fails with `MismatchError` when the lengths differ;
otherwise zips degrees with coefficients, stable-sorts by degree, and unzips
back into the two stored lists. -/
def Polynomial.new (coefficients : List ℚ) (degrees : List ℤ) :
    Except MismatchError Polynomial :=
  if coefficients.length ≠ degrees.length then
    .error ⟨⟩
  else
    let combined : List (ℤ × ℚ) := degrees.zip coefficients
    let sorted := combined.insertionSort degLe
    let unzipped := sorted.unzip
    .ok { coefficients := unzipped.2, degrees := unzipped.1 }

/-- Model of `Polynomial::differentiate`: drop the terms of degree `0`, turn every
other term `(degree, coefficient)` into `(degree - 1, coefficient * degree)`
(the degree is cast to the coefficient type for the multiplication). -/
def Polynomial.differentiate (p : Polynomial) : Polynomial :=
  let filtered : List (ℤ × ℚ) :=
    ((p.degrees.zip p.coefficients).filter (fun t => decide (t.1 ≠ 0))).map
      (fun t => (t.1 - 1, t.2 * (t.1 : ℚ)))
  let unzipped := filtered.unzip
  { degrees := unzipped.1, coefficients := unzipped.2 }

/-- Model of `Polynomial::compute`: map each aligned pair `(coefficient, degree)` to
`coefficient * x^degree` (integer-exponent power) and sum left to right
starting from `0` (Rust's `Iterator::sum` on `f64`). -/
def Polynomial.compute (p : Polynomial) (x : ℚ) : ℚ :=
  ((p.coefficients.zip p.degrees).map (fun t => t.1 * x ^ t.2)).foldl (· + ·) 0

/-- The `fmt::Display` rendering: each term printed as `(degree, coefficient)`,
the term strings joined by `", "`. -/
def Polynomial.display (p : Polynomial) : String :=
  let terms : List String :=
    (p.coefficients.zip p.degrees).map
      (fun t => "(" ++ toString t.2 ++ ", " ++ toString t.1 ++ ")")
  String.intercalate ", " terms

/-- The two data-model invariants of a `Polynomial`: the stored lists have
equal length, and the stored degrees are in non-decreasing order. -/
def Polynomial.Invariant (p : Polynomial) : Prop :=
  p.coefficients.length = p.degrees.length ∧ p.degrees.Sorted (· ≤ ·)

/-! ## Helper lemmas -/

theorem new_ok_of_length_eq {c : List ℚ} {d : List ℤ} (h : c.length = d.length) :
    Polynomial.new c d =
      .ok { coefficients := ((d.zip c).insertionSort degLe).unzip.2,
            degrees := ((d.zip c).insertionSort degLe).unzip.1 } := by
  simp [Polynomial.new, h]

theorem new_ok_elim {c : List ℚ} {d : List ℤ} {p : Polynomial}
    (h : Polynomial.new c d = .ok p) :
    c.length = d.length ∧
      p = { coefficients := ((d.zip c).insertionSort degLe).unzip.2,
            degrees := ((d.zip c).insertionSort degLe).unzip.1 } := by
  by_cases hl : c.length = d.length
  · rw [new_ok_of_length_eq hl] at h
    exact ⟨hl, (Except.ok.injEq _ _).mp h |>.symm⟩
  · simp [Polynomial.new, hl] at h

theorem map_filter_eq_filterMap (l : List (ℤ × ℚ)) :
    ((l.filter (fun t => decide (t.1 ≠ 0))).map (fun t => (t.1 - 1, t.2 * (t.1 : ℚ)))) =
      l.filterMap (fun t => if t.1 = 0 then none else some (t.1 - 1, t.2 * (t.1 : ℚ))) := by
  induction l with
  | nil => rfl
  | cons a l ih =>
    simp only [decide_not] at ih
    by_cases h : a.1 = 0 <;> simp [List.filter_cons, List.filterMap_cons, h, ih]

theorem filter_key_orderedInsert (k : ℤ) (a : ℤ × ℚ) (l : List (ℤ × ℚ)) :
    (l.orderedInsert degLe a).filter (fun t => decide (t.1 = k)) =
      if a.1 = k then a :: l.filter (fun t => decide (t.1 = k))
      else l.filter (fun t => decide (t.1 = k)) := by
  induction l with
  | nil => by_cases h : a.1 = k <;> simp [List.orderedInsert, List.filter_cons, h]
  | cons b l ih =>
    by_cases hab : degLe a b
    · by_cases hak : a.1 = k <;>
        simp [List.orderedInsert, hab, List.filter_cons, hak]
    · have hba : b.1 < a.1 := by
        have := not_le.mp (by simpa [degLe] using hab)
        exact this
      by_cases hak : a.1 = k
      · have hbk : ¬ b.1 = k := by omega
        simp [List.orderedInsert, hab, List.filter_cons, hbk, ih, hak]
      · simp [List.orderedInsert, hab, List.filter_cons, ih, hak]

theorem filter_key_insertionSort (k : ℤ) (l : List (ℤ × ℚ)) :
    (l.insertionSort degLe).filter (fun t => decide (t.1 = k)) =
      l.filter (fun t => decide (t.1 = k)) := by
  induction l with
  | nil => rfl
  | cons b l ih =>
    rw [List.insertionSort, filter_key_orderedInsert]
    by_cases hbk : b.1 = k <;> simp [List.filter_cons, hbk, ih]

theorem foldl_add_eq_sum (l : List ℚ) : ∀ a : ℚ, l.foldl (· + ·) a = a + l.sum := by
  induction l with
  | nil => intro a; simp
  | cons b l ih =>
    intro a
    rw [List.foldl_cons, ih, List.sum_cons]
    ring

theorem zip_map_sum (x : ℚ) : ∀ (c : List ℚ) (d : List ℤ), c.length = d.length →
    ((c.zip d).map (fun t => t.1 * x ^ t.2)).sum =
      ∑ i ∈ Finset.range c.length, c.getD i 0 * x ^ d.getD i 0 := by
  intro c
  induction c with
  | nil => intro d h; simp
  | cons a c ih =>
    intro d h
    cases d with
    | nil => simp at h
    | cons b d =>
      simp only [List.zip_cons_cons, List.map_cons, List.sum_cons, List.length_cons]
      rw [Finset.sum_range_succ']
      simp only [List.getD_cons_succ, List.getD_cons_zero]
      rw [ih d (by simpa using h)]
      ring

/-! ## Claim theorems -/

/-- C1: `Polynomial::new` fails with `MismatchError` exactly when the two
input lists have different lengths, and succeeds (returning a `Polynomial`)
exactly when they have equal length, including both empty. -/
theorem new_error_iff_length_mismatch (c : List ℚ) (d : List ℤ) :
    ((∃ e : MismatchError, Polynomial.new c d = .error e) ↔ c.length ≠ d.length) ∧
    ((∃ p : Polynomial, Polynomial.new c d = .ok p) ↔ c.length = d.length) := by
  by_cases h : c.length = d.length <;> simp [Polynomial.new, h]
  exact ⟨⟨⟩, trivial⟩

/-- C2: every `Polynomial` reached through the public interface — produced by
a successful `new` or by `differentiate` on a value that already satisfies the
invariants — has equally long stored lists and non-decreasingly sorted
degrees; `differentiate` preserves sortedness without re-sorting. -/
theorem reachable_invariant (c : List ℚ) (d : List ℤ) (p q : Polynomial) :
    (Polynomial.new c d = .ok p → p.Invariant) ∧
    (q.Invariant → q.differentiate.Invariant) := by
  constructor
  · intro h
    obtain ⟨hl, hp⟩ := new_ok_elim h
    subst hp
    refine ⟨?_, ?_⟩
    · simp [List.unzip_fst, List.unzip_snd]
    · have hs := List.sorted_insertionSort degLe (d.zip c)
      simp only [List.unzip_fst]
      exact List.pairwise_map.mpr hs
  · rintro ⟨hle, hs⟩
    have hfst : (q.degrees.zip q.coefficients).map Prod.fst = q.degrees :=
      List.map_fst_zip _ _ (le_of_eq hle.symm)
    have hzip : (q.degrees.zip q.coefficients).Pairwise (fun a b => a.1 ≤ b.1) := by
      refine List.pairwise_map.mp ?_
      rw [hfst]
      exact hs
    refine ⟨?_, ?_⟩
    · simp [Polynomial.differentiate, List.unzip_fst, List.unzip_snd]
    · simp only [Polynomial.differentiate, List.unzip_fst, List.map_map]
      refine List.pairwise_map.mpr ?_
      exact (hzip.filter _).imp (fun hab => by simpa using sub_le_sub_right hab 1)

/-- Witness for C2 at a concrete construction and differentiation. -/
theorem reachable_invariant_witness :
    (Polynomial.mk [1, 2, 1] [0, 1, 2]).Invariant ∧
    (Polynomial.mk [1, 2, 1] [0, 1, 2]).differentiate.Invariant :=
  ⟨(reachable_invariant [1, 2, 1] [2, 1, 0] (Polynomial.mk [1, 2, 1] [0, 1, 2])
      (Polynomial.mk [1, 2, 1] [0, 1, 2])).1 rfl,
   (reachable_invariant [1, 2, 1] [2, 1, 0] (Polynomial.mk [1, 2, 1] [0, 1, 2])
      (Polynomial.mk [1, 2, 1] [0, 1, 2])).2 ⟨rfl, by decide⟩⟩

/-- C3: the term list of `differentiate p` is exactly the term list of `p`
with every degree-`0` term removed and every other term `(d, c)` replaced by
`(d - 1, c * d)`, the degree cast to the coefficient type; negative-degree
terms are kept. The operation is total and leaves `p` untouched. -/
theorem differentiate_filterMap_spec (p : Polynomial) :
    p.differentiate.degrees.zip p.differentiate.coefficients =
      (p.degrees.zip p.coefficients).filterMap
        (fun t => if t.1 = 0 then none else some (t.1 - 1, t.2 * (t.1 : ℚ))) := by
  simp only [Polynomial.differentiate]
  rw [List.zip_unzip]
  exact map_filter_eq_filterMap _

/-- C5: the sort in `new` is stable: for every degree value `k`, the terms of
degree `k` appear in the constructed polynomial exactly as they appeared, in
order and unmerged, in the zipped input. -/
theorem new_stable_filter (c : List ℚ) (d : List ℤ) (p : Polynomial) (k : ℤ)
    (h : Polynomial.new c d = .ok p) :
    (p.degrees.zip p.coefficients).filter (fun t => decide (t.1 = k)) =
      (d.zip c).filter (fun t => decide (t.1 = k)) := by
  obtain ⟨hl, hp⟩ := new_ok_elim h
  subst hp
  simp only []
  rw [List.zip_unzip]
  exact filter_key_insertionSort k _

/-- Witness for C5 on an input with a duplicated degree. -/
theorem new_stable_filter_witness :
    ((Polynomial.mk [3, 1, 2] [4, 5, 5]).degrees.zip
        (Polynomial.mk [3, 1, 2] [4, 5, 5]).coefficients).filter
      (fun t => decide (t.1 = 5)) =
    (([5, 5, 4] : List ℤ).zip ([1, 2, 3] : List ℚ)).filter
      (fun t => decide (t.1 = 5)) :=
  new_stable_filter [1, 2, 3] [5, 5, 4] (Polynomial.mk [3, 1, 2] [4, 5, 5]) 5 rfl

/-- C9: end-to-end scenario: `new [1,2,1] [2,1,0]` succeeds with stored
degrees `[0,1,2]` and coefficients `[1,2,1]`; evaluating it at `-1` gives `0`;
its derivative has terms `(0,2), (1,2)`; evaluating the derivative at `-2`
gives `-2`. -/
theorem end_to_end_scenario :
    Polynomial.new [1, 2, 1] [2, 1, 0] = .ok (Polynomial.mk [1, 2, 1] [0, 1, 2]) ∧
    (Polynomial.mk [1, 2, 1] [0, 1, 2]).compute (-1) = 0 ∧
    (Polynomial.mk [1, 2, 1] [0, 1, 2]).differentiate = Polynomial.mk [2, 2] [0, 1] ∧
    (Polynomial.mk [2, 2] [0, 1]).compute (-2) = -2 := by
  refine ⟨rfl, ?_, ?_, ?_⟩ <;>
    norm_num [Polynomial.compute, Polynomial.differentiate]

/-- C6: `compute` equals the sum, in the stored order, of
`coefficients[i] * x ^ degrees[i]`, with integer-exponent powers (degree `0`
gives `1`, negative degree divides); a polynomial with no terms evaluates
to `0` since the range is empty. -/
theorem compute_eq_indexed_sum (p : Polynomial) (x : ℚ)
    (h : p.coefficients.length = p.degrees.length) :
    p.compute x = ∑ i ∈ Finset.range p.coefficients.length,
      p.coefficients.getD i 0 * x ^ p.degrees.getD i 0 := by
  simp only [Polynomial.compute]
  rw [foldl_add_eq_sum, zero_add, zip_map_sum x _ _ h]

/-- Witness for C6 at a concrete polynomial and point. -/
theorem compute_eq_indexed_sum_witness :
    (Polynomial.mk [2, 5] [1, 3]).compute 2 =
      ∑ i ∈ Finset.range (Polynomial.mk [2, 5] [1, 3]).coefficients.length,
        (Polynomial.mk [2, 5] [1, 3]).coefficients.getD i 0 *
          (2 : ℚ) ^ (Polynomial.mk [2, 5] [1, 3]).degrees.getD i 0 :=
  compute_eq_indexed_sum (Polynomial.mk [2, 5] [1, 3]) 2 rfl

/-- C4: for an input with pairwise-distinct degrees, every input pair
`(c i, d i)` survives construction at exactly one position `j` of the
result. -/
theorem new_pairing_unique (c : List ℚ) (d : List ℤ) (p : Polynomial) (i : ℕ)
    (hnd : d.Nodup) (h : Polynomial.new c d = .ok p) (hi : i < d.length) :
    ∃! j : ℕ, j < p.degrees.length ∧
      p.degrees.getD j 0 = d.getD i 0 ∧ p.coefficients.getD j 0 = c.getD i 0 := by
  obtain ⟨hl, hp⟩ := new_ok_elim h
  subst hp
  have hperm := (d.zip c).perm_insertionSort degLe
  have hfst : (d.zip c).map Prod.fst = d := List.map_fst_zip d c (le_of_eq hl.symm)
  have hnodS : (((d.zip c).insertionSort degLe).map Prod.fst).Nodup :=
    ((hperm.map Prod.fst).nodup_iff).mpr (by rw [hfst]; exact hnd)
  have hic : i < c.length := hl ▸ hi
  have hiL : i < (d.zip c).length := by
    rw [List.length_zip]
    omega
  have hmem : ((d.zip c)[i]) ∈ (d.zip c).insertionSort degLe :=
    hperm.mem_iff.mpr (List.getElem_mem hiL)
  obtain ⟨j, hj, hget⟩ := List.getElem_of_mem hmem
  have hSfst : ∀ (m : ℕ) (hm : m < ((d.zip c).insertionSort degLe).length),
      (((d.zip c).insertionSort degLe).unzip.1).getD m 0 =
        (((d.zip c).insertionSort degLe)[m]).1 := by
    intro m hm
    rw [List.unzip_fst, List.getD_eq_getElem _ _ (by simpa using hm), List.getElem_map]
  have hSsnd : ∀ (m : ℕ) (hm : m < ((d.zip c).insertionSort degLe).length),
      (((d.zip c).insertionSort degLe).unzip.2).getD m 0 =
        (((d.zip c).insertionSort degLe)[m]).2 := by
    intro m hm
    rw [List.unzip_snd, List.getD_eq_getElem _ _ (by simpa using hm), List.getElem_map]
  have hlenS : (((d.zip c).insertionSort degLe).unzip.1).length =
      ((d.zip c).insertionSort degLe).length := by
    rw [List.unzip_fst, List.length_map]
  have hdi : (d.zip c)[i] = (d.getD i 0, c.getD i 0) := by
    rw [List.getElem_zip, List.getD_eq_getElem d 0 hi, List.getD_eq_getElem c 0 hic]
  refine ⟨j, ⟨by rw [hlenS]; exact hj, ?_, ?_⟩, ?_⟩
  · rw [hSfst j hj, hget, hdi]
  · rw [hSsnd j hj, hget, hdi]
  · rintro j' ⟨hj', hdeg', _⟩
    rw [hlenS] at hj'
    have hinj := List.nodup_iff_injective_get.mp hnodS
    have hj'm : j' < (((d.zip c).insertionSort degLe).map Prod.fst).length := by
      rw [List.length_map]; exact hj'
    have hjm : j < (((d.zip c).insertionSort degLe).map Prod.fst).length := by
      rw [List.length_map]; exact hj
    have hS_j : (((d.zip c).insertionSort degLe)[j]).1 = d.getD i 0 := by
      rw [hget, hdi]
    have hS_j' : (((d.zip c).insertionSort degLe)[j']).1 = d.getD i 0 := by
      rw [← hSfst j' hj']
      exact hdeg'
    have hgets : (((d.zip c).insertionSort degLe).map Prod.fst).get ⟨j', hj'm⟩ =
        (((d.zip c).insertionSort degLe).map Prod.fst).get ⟨j, hjm⟩ := by
      simp only [List.get_eq_getElem, List.getElem_map]
      rw [hS_j', hS_j]
    have := hinj hgets
    simpa using congrArg Fin.val this

/-- Witness for C4 on a concrete all-distinct-degrees input. -/
theorem new_pairing_unique_witness :
    ∃! j : ℕ, j < (Polynomial.mk [7, 5] [1, 2]).degrees.length ∧
      (Polynomial.mk [7, 5] [1, 2]).degrees.getD j 0 = ([2, 1] : List ℤ).getD 0 0 ∧
      (Polynomial.mk [7, 5] [1, 2]).coefficients.getD j 0 = ([5, 7] : List ℚ).getD 0 0 :=
  new_pairing_unique [5, 7] [2, 1] (Polynomial.mk [7, 5] [1, 2]) 0
    (by decide) rfl (by decide)

/-- C7: evaluating the single-term polynomial `(degree 0, coefficient k)`
at any point `x` returns `k`. -/
theorem compute_degree_zero_constant (k x : ℚ) :
    (Polynomial.mk [k] [0]).compute x = k := by
  simp [Polynomial.compute]

/-- C8: differentiating a polynomial all of whose degrees are `0` (in
particular the zero-term polynomial) yields the zero-term polynomial; the
zero polynomial is thus a fixed point of `differentiate`. -/
theorem differentiate_degrees_all_zero (p : Polynomial)
    (h : ∀ t ∈ p.degrees, t = 0) :
    p.differentiate = Polynomial.mk [] [] := by
  have hf : (p.degrees.zip p.coefficients).filter (fun t => decide (t.1 ≠ 0)) = [] := by
    simp only [List.filter_eq_nil_iff]
    rintro ⟨a, b⟩ hab
    have h0 := h a (List.of_mem_zip hab).1
    simp [h0]
  simp only [Polynomial.differentiate, hf, List.map_nil, List.unzip_nil]

/-- Witness for C8 at the zero-term polynomial itself. -/
theorem differentiate_degrees_all_zero_witness :
    (Polynomial.mk [] []).differentiate = Polynomial.mk [] [] :=
  differentiate_degrees_all_zero (Polynomial.mk [] []) (by simp)

/-- C10: rendering the zero-term polynomial produces the empty string
(length 0, no placeholder text). -/
theorem display_zero_polynomial_empty :
    (Polynomial.mk [] []).display = "" ∧
    ((Polynomial.mk [] []).display).length = 0 :=
  ⟨rfl, rfl⟩

end Numerical
